import Mathlib

/-!
Verification of the `assetio` archive library (`src/lib.rs`).

The Rust source is shallowly embedded: byte streams are `List Nat` (each
element a byte value), `u64` arithmetic is `Nat` with explicit `% 2^64`
where the machine type can wrap, and fallible operations return `Except`.
A Rust panic (`unwrap`, out-of-bounds slice indexing) is modelled as a
distinguished error value so that "returns `Err`" and "panics" stay
distinguishable.

The identifier hasher (`std::collections::hash_map::DefaultHasher`) is not
part of this repository; following the spec (§4.1) — which requires only a
deterministic name → 64-bit id mapping — the development is parametric in a
hash function `h : String → Nat`, truncated to 64 bits exactly as
`Hasher::finish` returns a `u64`.
-/

namespace AssetIO

/-- `align_up` from `src/lib.rs`: `(val + (align - 1)) & !(align - 1)` on
`u64`, so the addition wraps modulo `2^64` and `!` is complement within 64
bits (xor with `2^64 - 1`). -/
def alignUp (val align : Nat) : Nat :=
  ((val + (align - 1)) % 2 ^ 64) &&& ((2 ^ 64 - 1) ^^^ (align - 1))

/-- `ASSET_ALIGN_SIZE` from `src/lib.rs`. -/
def ASSET_ALIGN_SIZE : Nat := 64

/-- Truncation to 64 bits: the wrap-around of Rust `u64` arithmetic. -/
def u64mod (x : Nat) : Nat := x % 2 ^ 64

theorem u64mod_lt (x : Nat) : u64mod x < 2 ^ 64 :=
  Nat.mod_lt _ (by positivity)

theorem u64mod_le (x : Nat) : u64mod x ≤ x :=
  Nat.mod_le _ _

theorem u64mod_eq_of_lt (x : Nat) (hx : x < 2 ^ 64) : u64mod x = x :=
  Nat.mod_eq_of_lt hx

theorem u64mod_mod_64 (x : Nat) : u64mod x % 64 = x % 64 :=
  Nat.mod_mod_of_dvd _ ⟨2 ^ 58, by norm_num⟩

/-- Exact (non-wrapping) rounding up to a multiple of 64; proof-side
companion used to state overflow-freedom bounds. -/
def alignUpE (v : Nat) : Nat := (v + 63) / 64 * 64

-- ### Bitwise lemmas about `alignUp`

theorem and_mask_eq_div_mul (x k : Nat) (hk : k ≤ 64) (hx : x < 2 ^ 64) :
    x &&& ((2 ^ 64 - 1) ^^^ (2 ^ k - 1)) = x / 2 ^ k * 2 ^ k := by
  have hrepr : x / 2 ^ k * 2 ^ k = (x >>> k) <<< k := by
    rw [Nat.shiftRight_eq_div_pow, Nat.shiftLeft_eq]
  rw [hrepr]
  apply Nat.eq_of_testBit_eq
  intro i
  rw [Nat.testBit_land, Nat.testBit_xor, Nat.testBit_two_pow_sub_one,
    Nat.testBit_two_pow_sub_one, Nat.testBit_shiftLeft]
  by_cases hik : i < k
  · have h64 : i < 64 := lt_of_lt_of_le hik hk
    simp [hik, h64, Nat.not_le.mpr hik]
  · by_cases h64 : i < 64
    · have hge : i ≥ k := Nat.not_lt.mp hik
      rw [Nat.testBit_shiftRight]
      have : k + (i - k) = i := by omega
      simp [hik, h64, hge, this]
    · have hxb : x.testBit i = false :=
        Nat.testBit_lt_two_pow (lt_of_lt_of_le hx (Nat.pow_le_pow_right (by omega) (by omega)))
      have hki : k + (i - k) = i := by omega
      rw [Nat.testBit_shiftRight, hki]
      simp [hxb, h64, hik]

theorem alignUp_eq_div_mul (v k : Nat) (hk : k ≤ 64) (hov : v + 2 ^ k - 1 < 2 ^ 64) :
    alignUp v (2 ^ k) = (v + 2 ^ k - 1) / 2 ^ k * 2 ^ k := by
  have hpos : 0 < 2 ^ k := Nat.pos_pow_of_pos k (by omega)
  have harg : v + (2 ^ k - 1) = v + 2 ^ k - 1 := by omega
  unfold alignUp
  rw [harg, Nat.mod_eq_of_lt hov]
  exact and_mask_eq_div_mul _ k hk hov

theorem alignUpE_ge (v : Nat) : v ≤ alignUpE v := by
  have h := Nat.div_add_mod (v + 63) 64
  have hlt : (v + 63) % 64 < 64 := Nat.mod_lt _ (by omega)
  unfold alignUpE
  omega

theorem alignUpE_lt_add (v : Nat) : alignUpE v < v + 64 := by
  have h := Nat.div_add_mod (v + 63) 64
  unfold alignUpE
  omega

theorem alignUpE_dvd (v : Nat) : 64 ∣ alignUpE v :=
  Dvd.intro_left _ rfl

theorem alignUpE_idem_arg (v : Nat) : alignUpE (alignUpE v) = alignUpE v := by
  unfold alignUpE
  have h1 : ((v + 63) / 64 * 64 + 63) / 64 = (v + 63) / 64 := by
    rw [Nat.add_comm, Nat.mul_comm]
    rw [Nat.add_mul_div_left 63 ((v + 63) / 64) (by omega)]
    omega
  rw [h1]

theorem alignUp64_eq_alignUpE (v : Nat) (hov : v + 63 < 2 ^ 64) :
    alignUp v 64 = alignUpE v := by
  have h64 : (64 : Nat) = 2 ^ 6 := by norm_num
  have h1 : alignUp v 64 = (v + 2 ^ 6 - 1) / 2 ^ 6 * 2 ^ 6 := by
    rw [h64]
    exact alignUp_eq_div_mul v 6 (by omega) (by norm_num; omega)
  rw [h1]
  unfold alignUpE
  norm_num

theorem and_mod_two_pow_zero (x m k : Nat) (hm : m % 2 ^ k = 0) :
    (x &&& m) % 2 ^ k = 0 := by
  have h1 : (x &&& m) % 2 ^ k = (x &&& m) &&& (2 ^ k - 1) :=
    (Nat.and_pow_two_sub_one_eq_mod _ k).symm
  have h2 : m &&& (2 ^ k - 1) = 0 := by
    rw [Nat.and_pow_two_sub_one_eq_mod, hm]
  rw [h1, Nat.land_assoc, h2]
  simp

theorem alignUp64_mod_64 (v : Nat) : alignUp v 64 % 64 = 0 := by
  have hmask : ((2 ^ 64 - 1 : Nat) ^^^ (64 - 1)) % 2 ^ 6 = 0 := by decide
  have h64 : (64 : Nat) = 2 ^ 6 := by norm_num
  unfold alignUp
  rw [h64]
  exact and_mod_two_pow_zero _ _ 6 hmask

theorem alignUp_lt_two_pow (v a : Nat) : alignUp v a < 2 ^ 64 := by
  unfold alignUp
  have h1 : ((v + (a - 1)) % 2 ^ 64) &&& ((2 ^ 64 - 1) ^^^ (a - 1)) ≤ (v + (a - 1)) % 2 ^ 64 :=
    Nat.and_le_left
  have h2 : (v + (a - 1)) % 2 ^ 64 < 2 ^ 64 := Nat.mod_lt _ (by positivity)
  omega

theorem alignUp_mult_le_sub (X k : Nat) (hk : k ≤ 64) (hd : 2 ^ k ∣ X)
    (hX : X < 2 ^ 64) : X + 2 ^ k ≤ 2 ^ 64 := by
  obtain ⟨c, hc⟩ := hd
  obtain ⟨d, hdd⟩ : (2 ^ k : Nat) ∣ 2 ^ 64 := pow_dvd_pow 2 hk
  have hcd : c < d := by
    by_contra hcon
    have : 2 ^ k * d ≤ 2 ^ k * c := Nat.mul_le_mul_left _ (Nat.not_lt.mp hcon)
    omega
  have : 2 ^ k * (c + 1) ≤ 2 ^ k * d := Nat.mul_le_mul_left _ (by omega)
  rw [Nat.mul_add] at this
  omega

theorem alignUp_of_mult (X k : Nat) (hk : k ≤ 64) (hd : 2 ^ k ∣ X)
    (hX : X < 2 ^ 64) : alignUp X (2 ^ k) = X := by
  obtain ⟨c, hc⟩ := hd
  have hpos : 0 < 2 ^ k := Nat.pos_pow_of_pos _ (by omega)
  have hov : X + 2 ^ k - 1 < 2 ^ 64 := by
    have := alignUp_mult_le_sub X k hk ⟨c, hc⟩ hX
    omega
  rw [alignUp_eq_div_mul X k hk hov]
  have harg : X + 2 ^ k - 1 = (2 ^ k - 1) + 2 ^ k * c := by omega
  rw [harg, Nat.add_mul_div_left _ _ hpos, Nat.div_eq_of_lt (by omega)]
  rw [Nat.zero_add, hc, Nat.mul_comm]

/-- C6 (amended): for every `u64` value `v` and power of two `a = 2^k`
(`k ≤ 63`) such that the computation `v + a - 1` does not overflow 64 bits,
`align_up` satisfies `v ≤ align_up v a`, `align_up v a < v + a`,
`align_up v a % a = 0`, and is idempotent. (Without the no-overflow side
condition the first law fails: see the counterexample.) -/
theorem align_up_laws (v k : Nat) (hk : k ≤ 63) (hov : v + 2 ^ k - 1 < 2 ^ 64) :
    v ≤ alignUp v (2 ^ k) ∧ alignUp v (2 ^ k) < v + 2 ^ k ∧
      alignUp v (2 ^ k) % 2 ^ k = 0 ∧
      alignUp (alignUp v (2 ^ k)) (2 ^ k) = alignUp v (2 ^ k) := by
  have hpos : 0 < 2 ^ k := Nat.pos_pow_of_pos _ (by omega)
  have heq := alignUp_eq_div_mul v k (by omega) hov
  have hdm := Nat.div_add_mod (v + 2 ^ k - 1) (2 ^ k)
  have hmlt : (v + 2 ^ k - 1) % 2 ^ k < 2 ^ k := Nat.mod_lt _ hpos
  have hprod : (v + 2 ^ k - 1) / 2 ^ k * 2 ^ k + (v + 2 ^ k - 1) % 2 ^ k
      = v + 2 ^ k - 1 := by
    rw [Nat.mul_comm]; exact hdm
  have hdvd : 2 ^ k ∣ (v + 2 ^ k - 1) / 2 ^ k * 2 ^ k := Dvd.intro_left _ rfl
  refine ⟨?_, ?_, ?_, ?_⟩
  · rw [heq]; omega
  · rw [heq]; omega
  · rw [heq]; exact Nat.mul_mod_left _ _
  · rw [heq]
    exact alignUp_of_mult _ k (by omega) hdvd (by omega)

/-- C6 counterexample: at `v = 2^64 - 1` and `a = 64 = 2^6` the `u64`
addition inside `align_up` wraps, the result is `0`, and the law
`align_up v a ≥ v` fails. -/
theorem align_up_laws_counterexample :
    (64 : Nat) = 2 ^ 6 ∧ alignUp (2 ^ 64 - 1) 64 = 0 ∧
      ¬ 2 ^ 64 - 1 ≤ alignUp (2 ^ 64 - 1) 64 := by
  refine ⟨by norm_num, ?_, ?_⟩ <;> decide

/-- Witness for C6 at `v = 5`, `a = 2^6 = 64`. -/
theorem align_up_laws_witness :
    (6 ≤ 63 ∧ 5 + 2 ^ 6 - 1 < 2 ^ 64) ∧
      (5 ≤ alignUp 5 (2 ^ 6) ∧ alignUp 5 (2 ^ 6) < 5 + 2 ^ 6 ∧
        alignUp 5 (2 ^ 6) % 2 ^ 6 = 0 ∧
        alignUp (alignUp 5 (2 ^ 6)) (2 ^ 6) = alignUp 5 (2 ^ 6)) :=
  ⟨⟨by decide, by decide⟩, align_up_laws 5 6 (by decide) (by decide)⟩

-- ### Byte-level serialization (little-endian u64, as in byteorder)

/-- Errors surfaced by the reading path (`io::Error` kinds in the source):
`truncated` is `UnexpectedEof` from `read_u64`, `invalidFormat` is the
`InvalidData` error returned on a magic-number mismatch. -/
inductive LibError where
  | truncated
  | invalidFormat
deriving DecidableEq

/-- Errors surfaced by `Builder::build`: `ioError` is a propagated
`io::Error` (`?` operator); `panicked` marks a Rust panic
(the `.unwrap()` on `fs::metadata`), which is not an `Err` return. -/
inductive BuildError where
  | panicked
  | ioError
deriving DecidableEq

/-- `write_u64::<LittleEndian>`: the eight bytes of `v`'s low 64 bits,
least significant first. -/
def u64le (v : Nat) : List Nat :=
  [v % 2 ^ 8, v / 2 ^ 8 % 2 ^ 8, v / 2 ^ 16 % 2 ^ 8, v / 2 ^ 24 % 2 ^ 8,
   v / 2 ^ 32 % 2 ^ 8, v / 2 ^ 40 % 2 ^ 8, v / 2 ^ 48 % 2 ^ 8, v / 2 ^ 56 % 2 ^ 8]

/-- `read_u64::<LittleEndian>` on a byte stream: consumes eight bytes or
fails with `UnexpectedEof`. -/
def readU64le : List Nat → Except LibError (Nat × List Nat)
  | b0 :: b1 :: b2 :: b3 :: b4 :: b5 :: b6 :: b7 :: rest =>
    .ok (b0 + 2 ^ 8 * b1 + 2 ^ 16 * b2 + 2 ^ 24 * b3 + 2 ^ 32 * b4
      + 2 ^ 40 * b5 + 2 ^ 48 * b6 + 2 ^ 56 * b7, rest)
  | _ => .error .truncated

-- ### Archive records (`FileHeader`, `AssetTableHeader`, `AssetTableEntry`)

/-- `AssetTableEntry` from `src/lib.rs`: `{id: u64, offset: u64, size: u64}`. -/
structure AssetTableEntry where
  id : Nat
  offset : Nat
  size : Nat
deriving DecidableEq

/-- `AssetTableEntry::to_stream`: three little-endian u64 fields. -/
def AssetTableEntry.toStream (e : AssetTableEntry) : List Nat :=
  u64le e.id ++ u64le e.offset ++ u64le e.size

/-- `AssetTableEntry::from_stream`: reads id, offset, size in order. -/
def AssetTableEntry.fromStream (s : List Nat) :
    Except LibError (AssetTableEntry × List Nat) :=
  match readU64le s with
  | .error e => .error e
  | .ok (id, s1) =>
    match readU64le s1 with
    | .error e => .error e
    | .ok (offset, s2) =>
      match readU64le s2 with
      | .error e => .error e
      | .ok (size, s3) => .ok (⟨id, offset, size⟩, s3)

/-- The entry-reading loop of `AssetTable::from_stream`: reads exactly
`n` entries sequentially, keeping them in stream order. (The source
inserts each entry into a `HashMap` keyed by id as it goes; the list in
stream order together with last-wins lookup `findEntry` models those
repeated inserts.) -/
def readEntriesLoop : Nat → List Nat → Except LibError (List AssetTableEntry × List Nat)
  | 0, s => .ok ([], s)
  | n + 1, s =>
    match AssetTableEntry.fromStream s with
    | .error e => .error e
    | .ok (e, s1) =>
      match readEntriesLoop n s1 with
      | .error err => .error err
      | .ok (es, s2) => .ok (e :: es, s2)

/-- `AssetTable::from_stream`: reads the `AssetTableHeader` count, then
that many entries. No bounds validation is performed (the `TODO` in the
source). -/
def AssetTable.fromStream (s : List Nat) :
    Except LibError (List AssetTableEntry × List Nat) :=
  match readU64le s with
  | .error e => .error e
  | .ok (numAssets, s1) => readEntriesLoop numAssets s1

/-- Lookup in the parsed table: the `HashMap` built by repeated
`insert` keyed on `entry.id`, so a later entry with the same id
overwrites an earlier one (last wins). -/
def findEntry (es : List AssetTableEntry) (i : Nat) : Option AssetTableEntry :=
  es.foldl (fun acc e => if e.id = i then some e else acc) none

/-- `AssetId::from_str` truncated to what the embedding can know:
Modelled from the spec: §4.1 Identifier Hasher. `DefaultHasher` lives in
the Rust standard library, outside this repository; the spec requires
only a deterministic name → 64-bit id mapping, so the id is an arbitrary
deterministic function `h` truncated to 64 bits exactly as
`Hasher::finish` returns a `u64`. -/
def assetIdOf (h : String → Nat) (path : String) : Nat := u64mod (h path)

/-- `Library` from `src/lib.rs`: the parsed table plus the memory-mapped
source bytes (the `Mmap` is modelled as the byte list it maps). -/
structure Library where
  entries : List AssetTableEntry
  source : List Nat
deriving DecidableEq

/-- `Library::new`: map the file, decode the `FileHeader`, reject a wrong
magic number with `InvalidData`, then parse the asset table. -/
def Library.new (src : List Nat) : Except LibError Library :=
  match readU64le src with
  | .error e => .error e
  | .ok (magicNumber, s1) =>
    if magicNumber ≠ 0xdeadbeef then .error .invalidFormat
    else
      match AssetTable.fromStream s1 with
      | .error e => .error e
      | .ok (es, _) => .ok ⟨es, src⟩

/-- `Asset` from `src/lib.rs`: a name, an offset/size window, and the
shared source bytes. -/
structure Asset where
  path : String
  offset : Nat
  size : Nat
  source : List Nat
deriving DecidableEq

/-- `Asset::data`: `&source[offset .. offset + size]` with `u64` + `usize`
arithmetic. Rust slice indexing panics when the range is malformed or
reaches past the end; the panic is modelled as `none`. -/
def Asset.data (a : Asset) : Option (List Nat) :=
  if a.offset ≤ u64mod (a.offset + a.size)
      ∧ u64mod (a.offset + a.size) ≤ a.source.length then
    some ((a.source.drop a.offset).take (u64mod (a.offset + a.size) - a.offset))
  else none

/-- `impl AssetLoader for Library`: hash the name, look it up in the
table, and on a hit hand out an `Asset` sharing the library's source. -/
def Library.load (lib : Library) (h : String → Nat) (path : String) : Option Asset :=
  match findEntry lib.entries (assetIdOf h path) with
  | some e => some ⟨path, e.offset, e.size, lib.source⟩
  | none => none

-- ### Builder (`Builder` in `src/lib.rs`)

/-- The build-time filesystem: a path either resolves to the file's byte
content or cannot be opened/stat'ed (`none`). `fs::metadata(..).len()` is
the content's length. -/
def Fs : Type := String → Option (List Nat)

/-- `Builder` state: a `HashMap<String, AssetDescription>` keyed by
`description.path`, where `AssetDescription` carries nothing but the
path. Modelled as the list of recorded paths in iteration order; both
loops of `build` traverse `self.assets.values()` of the same untouched
map, hence in one consistent order. -/
structure Builder where
  assets : List String
deriving DecidableEq

/-- `Builder::new`. -/
def Builder.new : Builder := ⟨[]⟩

/-- `Builder::insert`: `HashMap::insert` keyed on the description's path.
Re-inserting an existing path replaces its (identical) description and
keeps the map unchanged; a new path is recorded. -/
def Builder.insert (b : Builder) (path : String) : Builder :=
  if path ∈ b.assets then b else ⟨b.assets ++ [path]⟩

/-- The first loop of `Builder::build`: for each recorded asset, hash the
path, take the current offset, read the size from `fs::metadata(..)
.unwrap()` — a panic if the file cannot be stat'ed — and advance the
running offset by the 64-aligned size (`u64` wrapping addition). -/
def buildEntries (h : String → Nat) (fs : Fs) :
    List String → Nat → Except BuildError (List AssetTableEntry)
  | [], _ => .ok []
  | p :: rest, cur =>
    match fs p with
    | none => .error .panicked
    | some content =>
      match buildEntries h fs rest
          (u64mod (cur + alignUp content.length ASSET_ALIGN_SIZE)) with
      | .error e => .error e
      | .ok es => .ok (⟨assetIdOf h p, cur, content.length⟩ :: es)

/-- The second loop of `Builder::build`: `File::open` each source (an
`io::Error` is propagated by `?`), copy its bytes to the sink, then write
zero padding up to the next 64-byte boundary. -/
def assetBytes (fs : Fs) : List String → Except BuildError (List Nat)
  | [] => .ok []
  | p :: rest =>
    match fs p with
    | none => .error .ioError
    | some content =>
      match assetBytes fs rest with
      | .error e => .error e
      | .ok bs =>
        .ok (content
          ++ List.replicate (alignUp content.length ASSET_ALIGN_SIZE - content.length) 0
          ++ bs)

/-- `asset_data_base_offset`: header sizes plus `count * 24`, computed in
`usize`/`u64` (wraps modulo `2^64`). -/
def assetDataBaseOffset (n : Nat) : Nat := u64mod (8 + 8 + n * 24)

/-- `aligned_asset_data_base_offset`: the base offset rounded up to
`ASSET_ALIGN_SIZE`. -/
def alignedAssetDataBaseOffset (n : Nat) : Nat :=
  alignUp (assetDataBaseOffset n) ASSET_ALIGN_SIZE

/-- `Builder::build`: compute the table entries, then emit the file
header (magic number), the table header (entry count), every entry,
zero padding up to the aligned base, and each asset's bytes followed by
its own padding. The pre-asset padding count is the `u64` subtraction
`aligned_base - base`. -/
def Builder.build (h : String → Nat) (fs : Fs) (b : Builder) :
    Except BuildError (List Nat) :=
  match buildEntries h fs b.assets (alignedAssetDataBaseOffset b.assets.length) with
  | .error e => .error e
  | .ok es =>
    match assetBytes fs b.assets with
    | .error e => .error e
    | .ok ab =>
      .ok (u64le 0xdeadbeef ++ u64le es.length
        ++ (es.map AssetTableEntry.toStream).flatten
        ++ List.replicate
            (u64mod (2 ^ 64 + alignedAssetDataBaseOffset b.assets.length
              - assetDataBaseOffset b.assets.length)) 0
        ++ ab)

-- ### Asset manager (`AssetManager` in `src/lib.rs`)

/-- The cache mapping of `AssetManager`: a `HashMap<String, Arc<Asset>>`,
modelled as an association list where a later insert shadows earlier
bindings. -/
structure AssetManager where
  assets : List (String × Asset)
deriving DecidableEq

/-- `AssetManager::new` with the loader abstracted as a pure
`String → Option Asset` capability (`AssetLoader::load` takes `&self`). -/
def AssetManager.new : AssetManager := ⟨[]⟩

/-- `HashMap::get` on the cache. -/
def cacheLookup : List (String × Asset) → String → Option Asset
  | [], _ => none
  | (k, v) :: rest, p => if k = p then some v else cacheLookup rest p

/-- `AssetManager::load`: return the cached handle on a hit; otherwise
invoke the wrapped loader and cache a successful result. The third
component instruments whether `self.loader.load` was invoked during this
call (the spec's §8 "capability instrumented to count invocations"). -/
def AssetManager.load (loader : String → Option Asset) (m : AssetManager)
    (path : String) : Option Asset × AssetManager × Bool :=
  match cacheLookup m.assets path with
  | some a => (some a, m, false)
  | none =>
    match loader path with
    | some a => (some a, ⟨(path, a) :: m.assets⟩, true)
    | none => (none, m, true)

/-- Run a sequence of `load` calls, returning the final manager state. -/
def runLoads (loader : String → Option Asset) (m : AssetManager) :
    List String → AssetManager
  | [] => m
  | p :: rest => runLoads loader (AssetManager.load loader m p).2.1 rest

/-- Count how many times the wrapped loader is invoked with argument
`name` while serving a sequence of `load` calls. -/
def countInvocationsFor (loader : String → Option Asset) (name : String)
    (m : AssetManager) : List String → Nat
  | [] => 0
  | p :: rest =>
    let r := AssetManager.load loader m p
    (if r.2.2 = true ∧ p = name then 1 else 0)
      + countInvocationsFor loader name r.2.1 rest

-- ### C3: build on an unreadable source file

/-- C3: evaluation of the code at the failing input. A builder holding one
asset whose path cannot be stat'ed makes `Builder::build` hit the
`fs::metadata(&desc.path).unwrap()` and panic instead of returning the
I/O failure as an `Err`, contradicting the spec's failure clause. -/
theorem build_missing_file_panics :
    Builder.build (fun _ => 0) (fun _ => none) (Builder.insert Builder.new "a")
      = .error .panicked := rfl

-- ### C2: out-of-bounds table entry

/-- A 64-byte archive whose single table entry claims `offset 64, size
100`, far past the end of the source. -/
def corruptBytes : List Nat :=
  u64le 0xdeadbeef ++ u64le 1 ++ u64le 7 ++ u64le 64 ++ u64le 100
    ++ List.replicate 24 0

/-- C2: evaluation of the code at the failing input. `Library::new`
accepts the corrupt archive without any bounds validation (the source's
own `TODO` notes the missing check), `load` hands out the oversized
window, and `Asset::data` panics on the out-of-range slice (`none`)
instead of surfacing a `CorruptArchive` error. -/
theorem corrupt_entry_reaches_panic :
    (Library.new corruptBytes).map
        (fun lib => (lib.load (fun _ => 7) "a").map Asset.data)
      = .ok (some none) := rfl

-- ### C9: magic-number mismatch

/-- C9: any source whose first eight bytes decode (little-endian) to a
u64 other than `0xDEADBEEF` is rejected by `Library::new` with the
invalid-format error, and no `Library` is produced. -/
theorem invalid_magic_rejected (src : List Nat) (v : Nat) (rest : List Nat)
    (hr : readU64le src = .ok (v, rest)) (hv : v ≠ 0xdeadbeef) :
    Library.new src = .error .invalidFormat := by
  unfold Library.new
  rw [hr]
  simp [hv]

/-- Witness for C9: eight zero bytes decode to `0 ≠ 0xDEADBEEF`. -/
theorem invalid_magic_rejected_witness :
    readU64le (List.replicate 8 0) = .ok (0, []) ∧ (0 : Nat) ≠ 0xdeadbeef ∧
      Library.new (List.replicate 8 0) = .error .invalidFormat :=
  ⟨rfl, by decide, invalid_magic_rejected _ 0 [] rfl (by decide)⟩

-- ### Cache lemmas for C4 / C10

theorem cacheLookup_load_preserve (loader : String → Option Asset)
    (m : AssetManager) (q p : String) (b : Asset)
    (hb : cacheLookup m.assets p = some b) :
    cacheLookup ((AssetManager.load loader m q).2.1).assets p = some b := by
  unfold AssetManager.load
  cases hq : cacheLookup m.assets q with
  | some a => simpa using hb
  | none =>
    cases hlq : loader q with
    | none => simpa using hb
    | some a =>
      simp only [cacheLookup]
      by_cases hqp : q = p
      · subst hqp
        rw [hq] at hb
        exact absurd hb (by simp)
      · simp [hqp, hb]

theorem count_zero_of_cached (loader : String → Option Asset) (name : String)
    (b : Asset) :
    ∀ (reqs : List String) (m : AssetManager),
      cacheLookup m.assets name = some b →
      countInvocationsFor loader name m reqs = 0 := by
  intro reqs
  induction reqs with
  | nil => intro m _; rfl
  | cons p rest ih =>
    intro m hb
    unfold countInvocationsFor
    have hpres := cacheLookup_load_preserve loader m p name b hb
    by_cases hp : p = name
    · subst hp
      unfold AssetManager.load
      rw [hb]
      simpa using ih _ hb
    · simp only [hp, and_false, if_false, Nat.zero_add]
      exact ih _ hpres

theorem count_le_one_of_success (loader : String → Option Asset) (name : String)
    (a : Asset) (hl : loader name = some a) :
    ∀ (reqs : List String) (m : AssetManager),
      countInvocationsFor loader name m reqs ≤ 1 := by
  intro reqs
  induction reqs with
  | nil => intro m; simp [countInvocationsFor]
  | cons p rest ih =>
    intro m
    unfold countInvocationsFor
    by_cases hp : p = name
    · subst hp
      cases hc : cacheLookup m.assets p with
      | some b =>
        have h0 : (AssetManager.load loader m p) = (some b, m, false) := by
          simp [AssetManager.load, hc]
        rw [h0]
        simpa using ih m
      | none =>
        have h0 : (AssetManager.load loader m p)
            = (some a, ⟨(p, a) :: m.assets⟩, true) := by
          simp [AssetManager.load, hc, hl]
        rw [h0]
        have hz := count_zero_of_cached loader p a rest ⟨(p, a) :: m.assets⟩
          (by simp [cacheLookup])
        simp [hz]
    · simp only [hp, and_false, if_false, Nat.zero_add]
      exact ih _

-- ### C4: cache memoization

/-- C4 counterexample: with a wrapped loader that resolves nothing, two
`AssetManager::load` calls for the same name invoke the underlying loader
twice — nothing is cached on a failed resolution — refuting the claim
that the loader is invoked at most once per distinct name regardless of
how often `load` is called. -/
theorem cache_memoizes_counterexample :
    countInvocationsFor (fun _ => none) "a" AssetManager.new ["a", "a"] = 2 ∧
      ¬ countInvocationsFor (fun _ => none) "a" AssetManager.new ["a", "a"] ≤ 1 :=
  ⟨rfl, by decide⟩

/-- C4 (amended): for every name that the wrapped loader RESOLVES
SUCCESSFULLY, the loader is invoked at most once per manager lifetime no
matter how many `load` calls are made; in particular two `load` calls for
that name return equal, non-empty handles with at most one underlying
resolution. (For a name the loader fails to resolve, each `load` call
invokes the loader again — see the counterexample and C10.) -/
theorem cache_memoizes_successful (loader : String → Option Asset)
    (name : String) (a : Asset) (hl : loader name = some a) :
    (∀ (m : AssetManager) (reqs : List String),
        countInvocationsFor loader name m reqs ≤ 1) ∧
      ∀ m : AssetManager,
        (AssetManager.load loader m name).1
            = (AssetManager.load loader (AssetManager.load loader m name).2.1 name).1 ∧
          ((AssetManager.load loader m name).1).isSome = true ∧
          countInvocationsFor loader name m [name, name] ≤ 1 := by
  constructor
  · intro m reqs
    exact count_le_one_of_success loader name a hl reqs m
  · intro m
    refine ⟨?_, ?_, count_le_one_of_success loader name a hl [name, name] m⟩
    · cases hc : cacheLookup m.assets name with
      | some b => simp [AssetManager.load, hc]
      | none => simp [AssetManager.load, hc, hl, cacheLookup]
    · cases hc : cacheLookup m.assets name with
      | some b => simp [AssetManager.load, hc]
      | none => simp [AssetManager.load, hc, hl]

/-- Witness for C4 at a loader that always resolves to a fixed asset. -/
theorem cache_memoizes_successful_witness :
    (fun _ : String => some (⟨"a", 0, 0, []⟩ : Asset)) "a"
        = some (⟨"a", 0, 0, []⟩ : Asset) ∧
      (∀ (m : AssetManager) (reqs : List String),
          countInvocationsFor (fun _ => some (⟨"a", 0, 0, []⟩ : Asset)) "a" m reqs ≤ 1) ∧
        ∀ m : AssetManager,
          (AssetManager.load (fun _ => some (⟨"a", 0, 0, []⟩ : Asset)) m "a").1
              = (AssetManager.load (fun _ => some (⟨"a", 0, 0, []⟩ : Asset))
                  (AssetManager.load (fun _ => some (⟨"a", 0, 0, []⟩ : Asset)) m "a").2.1 "a").1 ∧
            ((AssetManager.load (fun _ => some (⟨"a", 0, 0, []⟩ : Asset)) m "a").1).isSome = true ∧
            countInvocationsFor (fun _ => some (⟨"a", 0, 0, []⟩ : Asset)) "a" m ["a", "a"] ≤ 1 :=
  ⟨rfl, cache_memoizes_successful _ "a" ⟨"a", 0, 0, []⟩ rfl⟩

-- ### C10: failed resolution is not cached

theorem cacheLookup_runLoads_none (loader : String → Option Asset) (p : String)
    (hl : loader p = none) :
    ∀ (reqs : List String) (m : AssetManager),
      cacheLookup m.assets p = none →
      cacheLookup (runLoads loader m reqs).assets p = none := by
  intro reqs
  induction reqs with
  | nil => intro m hm; exact hm
  | cons q rest ih =>
    intro m hm
    unfold runLoads
    apply ih
    unfold AssetManager.load
    cases hq : cacheLookup m.assets q with
    | some a => simpa using hm
    | none =>
      cases hlq : loader q with
      | none => simpa using hm
      | some a =>
        simp only [cacheLookup]
        by_cases hqp : q = p
        · subst hqp; rw [hl] at hlq; exact absurd hlq (by simp)
        · simp [hqp, hm]

/-- C10: for a name the wrapped loader cannot resolve, `AssetManager::load`
(on any manager reachable from a fresh one through that loader) returns
`None`, leaves the cache mapping unchanged — the name is not recorded —
and has invoked the loader; since the state is unchanged, any later call
with the same name invokes the loader again. -/
theorem load_miss_not_cached (loader : String → Option Asset) (p : String)
    (hl : loader p = none) (reqs : List String) :
    AssetManager.load loader (runLoads loader AssetManager.new reqs) p
      = (none, runLoads loader AssetManager.new reqs, true) := by
  have hc := cacheLookup_runLoads_none loader p hl reqs AssetManager.new rfl
  unfold AssetManager.load
  rw [hc, hl]

/-- Witness for C10 with a loader that resolves nothing, after one prior
request. -/
theorem load_miss_not_cached_witness :
    (fun _ : String => (none : Option Asset)) "a" = none ∧
      AssetManager.load (fun _ => none)
          (runLoads (fun _ => none) AssetManager.new ["b"]) "a"
        = (none, runLoads (fun _ => none) AssetManager.new ["b"], true) :=
  ⟨rfl, load_miss_not_cached _ "a" rfl ["b"]⟩

-- ### Builder layout lemmas

theorem buildEntries_length (h : String → Nat) (fs : Fs) :
    ∀ (paths : List String) (cur : Nat) (es : List AssetTableEntry),
      buildEntries h fs paths cur = .ok es → es.length = paths.length := by
  intro paths
  induction paths with
  | nil =>
    intro cur es hb
    simp only [buildEntries, Except.ok.injEq] at hb
    subst hb; rfl
  | cons p rest ih =>
    intro cur es hb
    unfold buildEntries at hb
    cases hfp : fs p with
    | none => simp [hfp] at hb
    | some content =>
      simp only [hfp] at hb
      cases hrec : buildEntries h fs rest
          (u64mod (cur + alignUp content.length ASSET_ALIGN_SIZE)) with
      | error e => simp [hrec] at hb
      | ok es1 =>
        simp only [hrec, Except.ok.injEq] at hb
        subst hb
        simp [ih _ _ hrec]

theorem buildEntries_offsets (h : String → Nat) (fs : Fs) :
    ∀ (paths : List String) (cur : Nat) (es : List AssetTableEntry),
      buildEntries h fs paths cur = .ok es →
      cur % 64 = 0 → cur < 2 ^ 64 →
      (∀ e ∈ es, e.offset % 64 = 0 ∧ e.offset < 2 ^ 64) ∧
      (∀ e, es.get? 0 = some e → e.offset = cur) ∧
      (∀ i e1 e2, es.get? i = some e1 → es.get? (i + 1) = some e2 →
        e2.offset = (e1.offset + alignUp e1.size 64) % 2 ^ 64) := by
  intro paths
  induction paths with
  | nil =>
    intro cur es hb _ _
    simp only [buildEntries, Except.ok.injEq] at hb
    subst hb
    refine ⟨by simp, by simp, ?_⟩
    intro i e1 e2 h1 _
    simp at h1
  | cons p rest ih =>
    intro cur es hb h64 hlt
    unfold buildEntries at hb
    cases hfp : fs p with
    | none => simp [hfp] at hb
    | some content =>
      simp only [hfp] at hb
      cases hrec : buildEntries h fs rest
          (u64mod (cur + alignUp content.length ASSET_ALIGN_SIZE)) with
      | error e => simp [hrec] at hb
      | ok es1 =>
        simp only [hrec, Except.ok.injEq] at hb
        subst hb
        have hcur64 : u64mod (cur + alignUp content.length ASSET_ALIGN_SIZE) % 64 = 0 := by
          rw [u64mod_mod_64, Nat.add_mod, h64]
          have := alignUp64_mod_64 content.length
          simp only [ASSET_ALIGN_SIZE]
          omega
        have hcurlt : u64mod (cur + alignUp content.length ASSET_ALIGN_SIZE) < 2 ^ 64 :=
          u64mod_lt _
        obtain ⟨ihmem, ihhead, ihchain⟩ := ih _ _ hrec hcur64 hcurlt
        refine ⟨?_, ?_, ?_⟩
        · intro e he
          rcases List.mem_cons.mp he with he | he
          · subst he; exact ⟨h64, hlt⟩
          · exact ihmem e he
        · intro e he
          simp only [List.get?_cons_zero, Option.some.injEq] at he
          subst he; rfl
        · intro i e1 e2 h1 h2
          cases i with
          | zero =>
            simp only [List.get?_cons_zero, Option.some.injEq] at h1
            simp only [List.get?_cons_succ] at h2
            subst h1
            have := ihhead e2 h2
            simpa [ASSET_ALIGN_SIZE] using this
          | succ j =>
            simp only [List.get?_cons_succ] at h1 h2
            exact ihchain j e1 e2 h1 h2

/-- C5: for every successful build, the aligned asset-data base offset and
the offset of every computed table entry are multiples of 64; the first
entry's offset is the aligned base, and each following entry's offset is
the previous offset advanced by the previous asset's size rounded up to 64
(in `u64` arithmetic). -/
theorem build_offsets_aligned (h : String → Nat) (fs : Fs) (b : Builder)
    (es : List AssetTableEntry)
    (hb : buildEntries h fs b.assets
      (alignedAssetDataBaseOffset b.assets.length) = .ok es) :
    alignedAssetDataBaseOffset b.assets.length % 64 = 0 ∧
      (∀ e ∈ es, e.offset % 64 = 0) ∧
      (∀ e, es.get? 0 = some e →
        e.offset = alignedAssetDataBaseOffset b.assets.length) ∧
      (∀ i e1 e2, es.get? i = some e1 → es.get? (i + 1) = some e2 →
        e2.offset = (e1.offset + alignUp e1.size 64) % 2 ^ 64) := by
  have hal : alignedAssetDataBaseOffset b.assets.length % 64 = 0 :=
    alignUp64_mod_64 _
  have hlt : alignedAssetDataBaseOffset b.assets.length < 2 ^ 64 :=
    alignUp_lt_two_pow _ _
  obtain ⟨hmem, hhead, hchain⟩ := buildEntries_offsets h fs _ _ _ hb hal hlt
  exact ⟨hal, fun e he => (hmem e he).1, hhead, hchain⟩

/-- Witness for C5: one asset with empty content. -/
theorem build_offsets_aligned_witness :
    buildEntries (fun _ => 1) (fun _ => some []) (Builder.mk ["a"]).assets
        (alignedAssetDataBaseOffset (Builder.mk ["a"]).assets.length)
      = .ok [⟨1, 64, 0⟩] ∧
      (alignedAssetDataBaseOffset (Builder.mk ["a"]).assets.length % 64 = 0 ∧
        (∀ e ∈ [(⟨1, 64, 0⟩ : AssetTableEntry)], e.offset % 64 = 0) ∧
        (∀ e, [(⟨1, 64, 0⟩ : AssetTableEntry)].get? 0 = some e →
          e.offset = alignedAssetDataBaseOffset (Builder.mk ["a"]).assets.length) ∧
        (∀ i e1 e2, [(⟨1, 64, 0⟩ : AssetTableEntry)].get? i = some e1 →
          [(⟨1, 64, 0⟩ : AssetTableEntry)].get? (i + 1) = some e2 →
          e2.offset = (e1.offset + alignUp e1.size 64) % 2 ^ 64)) :=
  ⟨rfl, build_offsets_aligned (fun _ => 1) (fun _ => some []) (Builder.mk ["a"])
    [⟨1, 64, 0⟩] rfl⟩

theorem toStream_length (e : AssetTableEntry) : e.toStream.length = 24 := by
  simp [AssetTableEntry.toStream, u64le]

theorem entries_flatten_length (es : List AssetTableEntry) :
    (es.map AssetTableEntry.toStream).flatten.length = 24 * es.length := by
  induction es with
  | nil => rfl
  | cons e es ih =>
    simp only [List.map_cons, List.flatten_cons, List.length_append, ih,
      toStream_length, List.length_cons]
    omega

theorem buildEntries_size_bound (h : String → Nat) (fs : Fs) :
    ∀ (paths : List String) (cur : Nat) (es : List AssetTableEntry) (ab : List Nat),
      buildEntries h fs paths cur = .ok es →
      assetBytes fs paths = .ok ab →
      ∀ e ∈ es, e.offset + e.size ≤ cur + ab.length := by
  intro paths
  induction paths with
  | nil =>
    intro cur es ab hb _ e he
    simp only [buildEntries, Except.ok.injEq] at hb
    subst hb
    simp at he
  | cons p rest ih =>
    intro cur es ab hb hab e he
    unfold buildEntries at hb
    unfold assetBytes at hab
    cases hfp : fs p with
    | none => simp [hfp] at hb
    | some content =>
      simp only [hfp] at hb hab
      cases hrec : buildEntries h fs rest
          (u64mod (cur + alignUp content.length ASSET_ALIGN_SIZE)) with
      | error er => simp [hrec] at hb
      | ok es1 =>
        simp only [hrec, Except.ok.injEq] at hb
        cases hrab : assetBytes fs rest with
        | error er => simp [hrab] at hab
        | ok ab1 =>
          simp only [hrab, Except.ok.injEq] at hab
          subst hb
          subst hab
          have hlen : (content
              ++ List.replicate (alignUp content.length ASSET_ALIGN_SIZE - content.length) 0
              ++ ab1).length
              = content.length
                + (alignUp content.length ASSET_ALIGN_SIZE - content.length)
                + ab1.length := by
            simp [List.length_append]
            omega
          rcases List.mem_cons.mp he with he | he
          · subst he
            simp only []
            rw [hlen]
            omega
          · have hih := ih _ _ _ hrec hrab e he
            have hmle : u64mod (cur + alignUp content.length ASSET_ALIGN_SIZE)
                ≤ cur + alignUp content.length ASSET_ALIGN_SIZE := u64mod_le _
            rw [hlen]
            omega

theorem alignedBase_le_written (n : Nat) :
    alignedAssetDataBaseOffset n ≤ 8 + 8 + 24 * n
      + u64mod (2 ^ 64 + alignedAssetDataBaseOffset n - assetDataBaseOffset n) := by
  have hbase : assetDataBaseOffset n < 2 ^ 64 := u64mod_lt _
  have hal : alignedAssetDataBaseOffset n < 2 ^ 64 := alignUp_lt_two_pow _ _
  have hb2 : assetDataBaseOffset n ≤ 8 + 8 + n * 24 := u64mod_le _
  rcases le_or_lt (assetDataBaseOffset n) (alignedAssetDataBaseOffset n) with hc | hc
  · have harg : 2 ^ 64 + alignedAssetDataBaseOffset n - assetDataBaseOffset n
        = 2 ^ 64 + (alignedAssetDataBaseOffset n - assetDataBaseOffset n) := by omega
    have hpad : u64mod (2 ^ 64 + alignedAssetDataBaseOffset n - assetDataBaseOffset n)
        = alignedAssetDataBaseOffset n - assetDataBaseOffset n := by
      rw [harg]
      unfold u64mod
      rw [Nat.add_mod_left]
      exact Nat.mod_eq_of_lt (by omega)
    omega
  · have hpad : u64mod (2 ^ 64 + alignedAssetDataBaseOffset n - assetDataBaseOffset n)
        = 2 ^ 64 + alignedAssetDataBaseOffset n - assetDataBaseOffset n :=
      u64mod_eq_of_lt _ (by omega)
    omega

/-- C7: every table entry written by a successful `Builder::build`
satisfies `offset + size ≤ total bytes written to the sink`; the builder
guarantees the reader-side bounds invariant by construction. -/
theorem build_entries_in_bounds (h : String → Nat) (fs : Fs) (b : Builder)
    (bytes : List Nat) (es : List AssetTableEntry)
    (hbytes : Builder.build h fs b = .ok bytes)
    (hes : buildEntries h fs b.assets
      (alignedAssetDataBaseOffset b.assets.length) = .ok es) :
    ∀ e ∈ es, e.offset + e.size ≤ bytes.length := by
  intro e he
  unfold Builder.build at hbytes
  simp only [hes] at hbytes
  cases hab : assetBytes fs b.assets with
  | error er => simp [hab] at hbytes
  | ok ab =>
    simp only [hab, Except.ok.injEq] at hbytes
    subst hbytes
    have hbound := buildEntries_size_bound h fs _ _ _ _ hes hab e he
    have hlenes : es.length = b.assets.length := buildEntries_length h fs _ _ _ hes
    have hle := alignedBase_le_written b.assets.length
    simp only [List.length_append, List.length_replicate, entries_flatten_length,
      u64le, List.length_cons, List.length_nil, hlenes]
    omega

/-- Witness for C7: one asset holding two bytes. -/
theorem build_entries_in_bounds_witness :
    Builder.build (fun _ => 1) (fun _ => some [9, 9]) (Builder.mk ["a"])
        = .ok ((Builder.build (fun _ => 1) (fun _ => some [9, 9])
            (Builder.mk ["a"])).toOption.getD []) ∧
      buildEntries (fun _ => 1) (fun _ => some [9, 9]) (Builder.mk ["a"]).assets
          (alignedAssetDataBaseOffset (Builder.mk ["a"]).assets.length)
        = .ok [⟨1, 64, 2⟩] ∧
      ∀ e ∈ [(⟨1, 64, 2⟩ : AssetTableEntry)],
        e.offset + e.size
          ≤ ((Builder.build (fun _ => 1) (fun _ => some [9, 9])
              (Builder.mk ["a"])).toOption.getD []).length :=
  ⟨rfl, rfl, build_entries_in_bounds (fun _ => 1) (fun _ => some [9, 9])
    (Builder.mk ["a"]) _ _ rfl rfl⟩

-- ### Read-back lemmas: parsing what the builder wrote

theorem readU64le_u64le (v : Nat) (rest : List Nat) :
    readU64le (u64le v ++ rest) = .ok (u64mod v, rest) := by
  simp only [u64le, List.cons_append, List.nil_append, readU64le,
    Except.ok.injEq, Prod.mk.injEq, u64mod]
  refine ⟨?_, trivial⟩
  norm_num
  omega

theorem fromStream_toStream (e : AssetTableEntry) (rest : List Nat)
    (h1 : e.id < 2 ^ 64) (h2 : e.offset < 2 ^ 64) (h3 : e.size < 2 ^ 64) :
    AssetTableEntry.fromStream (e.toStream ++ rest) = .ok (e, rest) := by
  unfold AssetTableEntry.toStream
  rw [List.append_assoc, List.append_assoc]
  unfold AssetTableEntry.fromStream
  simp only [readU64le_u64le, u64mod_eq_of_lt _ h1, u64mod_eq_of_lt _ h2,
    u64mod_eq_of_lt _ h3]

theorem readEntriesLoop_roundtrip :
    ∀ (es : List AssetTableEntry) (tail : List Nat),
      (∀ e ∈ es, e.id < 2 ^ 64 ∧ e.offset < 2 ^ 64 ∧ e.size < 2 ^ 64) →
      readEntriesLoop es.length ((es.map AssetTableEntry.toStream).flatten ++ tail)
        = .ok (es, tail) := by
  intro es
  induction es with
  | nil => intro tail _; rfl
  | cons e es ih =>
    intro tail hok
    obtain ⟨h1, h2, h3⟩ := hok e (by simp)
    simp only [List.length_cons, List.map_cons, List.flatten_cons, List.append_assoc]
    unfold readEntriesLoop
    simp only [fromStream_toStream e _ h1 h2 h3]
    simp only [ih tail (fun x hx => hok x (by simp [hx]))]

theorem tableFromStream_roundtrip (es : List AssetTableEntry) (tail : List Nat)
    (hok : ∀ e ∈ es, e.id < 2 ^ 64 ∧ e.offset < 2 ^ 64 ∧ e.size < 2 ^ 64)
    (hn : es.length < 2 ^ 64) :
    AssetTable.fromStream (u64le es.length
        ++ ((es.map AssetTableEntry.toStream).flatten ++ tail))
      = .ok (es, tail) := by
  unfold AssetTable.fromStream
  rw [readU64le_u64le, u64mod_eq_of_lt _ hn]
  exact readEntriesLoop_roundtrip es tail hok

theorem findEntry_acc_of_not_mem (es : List AssetTableEntry) (i : Nat)
    (acc : Option AssetTableEntry) (hnm : ∀ x ∈ es, x.id ≠ i) :
    es.foldl (fun acc e => if e.id = i then some e else acc) acc = acc := by
  induction es generalizing acc with
  | nil => rfl
  | cons x es ih =>
    have hx : x.id ≠ i := hnm x (by simp)
    simp only [List.foldl_cons, hx, if_false]
    exact ih acc (fun y hy => hnm y (by simp [hy]))

theorem findEntry_of_nodup (es : List AssetTableEntry)
    (hnd : (es.map (fun e => e.id)).Nodup) (e : AssetTableEntry) (he : e ∈ es) :
    findEntry es e.id = some e := by
  unfold findEntry
  induction es with
  | nil => simp at he
  | cons x es ih =>
    simp only [List.map_cons, List.nodup_cons] at hnd
    rcases List.mem_cons.mp he with he1 | he1
    · subst he1
      have hnm : ∀ y ∈ es, y.id ≠ e.id := by
        intro y hy hcon
        exact hnd.1 (hcon ▸ List.mem_map_of_mem (fun z => z.id) hy)
      simp only [List.foldl_cons, if_pos rfl]
      exact findEntry_acc_of_not_mem es e.id (some e) hnm
    · have := ih hnd.2 he1
      simp only [List.foldl_cons]
      by_cases hx : x.id = e.id
      · exfalso
        exact hnd.1 (hx ▸ List.mem_map_of_mem (fun z => z.id) he1)
      · simpa [hx] using this

-- ### Core layout lemma: what a successful build puts where

/-- The byte content a path resolves to (only used under an `isSome`
hypothesis). -/
def fsContent (fs : Fs) (p : String) : List Nat := (fs p).getD []

/-- Exact total length of the 64-aligned asset-data region for a list of
paths. -/
def pathsSpan (fs : Fs) : List String → Nat
  | [] => 0
  | p :: rest => alignUpE (fsContent fs p).length + pathsSpan fs rest

theorem fsContent_eq (fs : Fs) (p : String) (hp : (fs p).isSome = true) :
    fs p = some (fsContent fs p) := by
  unfold fsContent
  cases hfp : fs p with
  | none => rw [hfp] at hp; simp at hp
  | some c => rfl

theorem len_add_63_lt (fs : Fs) (p : String) (rest : Nat) (cur : Nat)
    (hbound : cur + (alignUpE (fsContent fs p).length + rest) < 2 ^ 64) :
    (fsContent fs p).length + 63 < 2 ^ 64 := by
  have h1 : (fsContent fs p).length ≤ alignUpE (fsContent fs p).length := alignUpE_ge _
  have h2 : alignUpE (fsContent fs p).length < 2 ^ 64 := by omega
  have h3 : alignUpE (fsContent fs p).length + 64 ≤ 2 ^ 64 := by
    have hdvd : (2 : Nat) ^ 6 ∣ alignUpE (fsContent fs p).length := by
      have := alignUpE_dvd (fsContent fs p).length
      simpa [show ((64 : Nat) = 2 ^ 6) from by norm_num] using this
    have := alignUp_mult_le_sub (alignUpE (fsContent fs p).length) 6 (by omega) hdvd h2
    simpa [show ((2 : Nat) ^ 6 = 64) from by norm_num] using this
  omega

theorem buildEntries_spec (h : String → Nat) (fs : Fs) :
    ∀ (paths : List String) (cur : Nat),
      (∀ p ∈ paths, (fs p).isSome = true) →
      cur + pathsSpan fs paths < 2 ^ 64 →
      ∃ es ab,
        buildEntries h fs paths cur = .ok es ∧
        assetBytes fs paths = .ok ab ∧
        ab.length = pathsSpan fs paths ∧
        es.map (fun e => e.id) = paths.map (assetIdOf h) ∧
        (∀ e ∈ es, e.id < 2 ^ 64 ∧ e.offset < 2 ^ 64 ∧ e.size < 2 ^ 64) ∧
        ∀ p ∈ paths, ∃ e, e ∈ es ∧ e.id = assetIdOf h p ∧
          e.size = (fsContent fs p).length ∧
          cur ≤ e.offset ∧
          e.offset + e.size ≤ cur + pathsSpan fs paths ∧
          (ab.drop (e.offset - cur)).take e.size = fsContent fs p := by
  intro paths
  induction paths with
  | nil =>
    intro cur _ _
    refine ⟨[], [], rfl, rfl, rfl, rfl, by simp, by simp⟩
  | cons p rest ih =>
    intro cur hfs hbound
    have hp : (fs p).isSome = true := hfs p (by simp)
    have hc : fs p = some (fsContent fs p) := fsContent_eq fs p hp
    have hspan : pathsSpan fs (p :: rest)
        = alignUpE (fsContent fs p).length + pathsSpan fs rest := rfl
    have hlen63 : (fsContent fs p).length + 63 < 2 ^ 64 :=
      len_add_63_lt fs p (pathsSpan fs rest) cur (hspan ▸ hbound)
    have halign : alignUp (fsContent fs p).length ASSET_ALIGN_SIZE
        = alignUpE (fsContent fs p).length := by
      show alignUp (fsContent fs p).length 64 = _
      exact alignUp64_eq_alignUpE _ hlen63
    have hcur2 : u64mod (cur + alignUp (fsContent fs p).length ASSET_ALIGN_SIZE)
        = cur + alignUpE (fsContent fs p).length := by
      rw [halign]
      exact u64mod_eq_of_lt _ (by rw [hspan] at hbound; omega)
    obtain ⟨es1, ab1, hbe1, hab1, hlen1, hmap1, hflds1, hper1⟩ :=
      ih (cur + alignUpE (fsContent fs p).length)
        (fun q hq => hfs q (by simp [hq]))
        (by rw [hspan] at hbound; omega)
    refine ⟨⟨assetIdOf h p, cur, (fsContent fs p).length⟩ :: es1,
      fsContent fs p
        ++ List.replicate
            (alignUp (fsContent fs p).length ASSET_ALIGN_SIZE
              - (fsContent fs p).length) 0
        ++ ab1, ?_, ?_, ?_, ?_, ?_, ?_⟩
    · unfold buildEntries
      simp only [hc, hcur2, hbe1]
    · unfold assetBytes
      simp only [hc, hab1]
    · have hge := alignUpE_ge (fsContent fs p).length
      simp only [List.length_append, List.length_replicate, hlen1, hspan, halign]
      omega
    · simp [hmap1]
    · intro e he
      rcases List.mem_cons.mp he with he | he
      · subst he
        have hge := alignUpE_ge (fsContent fs p).length
        rw [hspan] at hbound
        exact ⟨u64mod_lt _, by show cur < 2 ^ 64; omega,
          by show (fsContent fs p).length < 2 ^ 64; omega⟩
      · exact hflds1 e he
    · intro q hq
      rcases List.mem_cons.mp hq with hq | hq
      · subst hq
        refine ⟨⟨assetIdOf h q, cur, (fsContent fs q).length⟩, by simp, rfl, rfl,
          le_refl _, ?_, ?_⟩
        · have hge := alignUpE_ge (fsContent fs q).length
          simp only []
          rw [hspan]
          omega
        · simp only [Nat.sub_self, List.drop_zero]
          rw [List.append_assoc]
          exact List.take_left _ _
      · obtain ⟨e, hees, heid, hesz, hecur, hebd, heslice⟩ := hper1 q hq
        refine ⟨e, by simp [hees], heid, hesz, by omega, ?_, ?_⟩
        · rw [hspan]; omega
        · have hplen : (fsContent fs p
              ++ List.replicate
                  (alignUp (fsContent fs p).length ASSET_ALIGN_SIZE
                    - (fsContent fs p).length) 0).length
              = alignUpE (fsContent fs p).length := by
            have hge := alignUpE_ge (fsContent fs p).length
            simp only [List.length_append, List.length_replicate, halign]
            omega
          have hoff : e.offset - cur
              = (fsContent fs p
                  ++ List.replicate
                      (alignUp (fsContent fs p).length ASSET_ALIGN_SIZE
                        - (fsContent fs p).length) 0).length
                + (e.offset - (cur + alignUpE (fsContent fs p).length)) := by
            rw [hplen]; omega
          rw [hoff, List.drop_append]
          exact heslice

-- ### C1: build → open → load round trip

/-- C1 (amended): for every builder whose recorded names have readable
contents and PAIRWISE DISTINCT 64-bit AssetIds — distinct names alone do
not suffice, since two distinct names can hash to the same id — and whose
layout fits in a `u64` (no overflow), `Builder::build` succeeds,
`Library::new` accepts the produced bytes, and loading each recorded name
yields an asset whose `data()` slice is byte-identical to that name's
original content. -/
theorem build_open_load_roundtrip (h : String → Nat) (fs : Fs) (b : Builder)
    (hfs : ∀ p ∈ b.assets, (fs p).isSome = true)
    (hnd : (b.assets.map (assetIdOf h)).Nodup)
    (hbound : 8 + 8 + b.assets.length * 24 + 63 + pathsSpan fs b.assets < 2 ^ 64) :
    ∃ bytes lib, Builder.build h fs b = .ok bytes ∧ Library.new bytes = .ok lib ∧
      ∀ p ∈ b.assets, ∃ content a, fs p = some content ∧
        Library.load lib h p = some a ∧ Asset.data a = some content := by
  have hbase : assetDataBaseOffset b.assets.length = 8 + 8 + b.assets.length * 24 :=
    u64mod_eq_of_lt _ (by omega)
  have halinE : alignedAssetDataBaseOffset b.assets.length
      = alignUpE (8 + 8 + b.assets.length * 24) := by
    show alignUp (assetDataBaseOffset b.assets.length) 64 = _
    rw [hbase]
    exact alignUp64_eq_alignUpE _ (by omega)
  have hcurup : alignUpE (8 + 8 + b.assets.length * 24)
      < 8 + 8 + b.assets.length * 24 + 64 := alignUpE_lt_add _
  have hcurge : 8 + 8 + b.assets.length * 24
      ≤ alignUpE (8 + 8 + b.assets.length * 24) := alignUpE_ge _
  have hcb : alignedAssetDataBaseOffset b.assets.length + pathsSpan fs b.assets
      < 2 ^ 64 := by rw [halinE]; omega
  obtain ⟨es, ab, hbe, hab, hablen, hmap, hflds, hper⟩ :=
    buildEntries_spec h fs b.assets (alignedAssetDataBaseOffset b.assets.length) hfs hcb
  have hneslen : es.length = b.assets.length := buildEntries_length h fs _ _ _ hbe
  have hbge : assetDataBaseOffset b.assets.length
      ≤ alignedAssetDataBaseOffset b.assets.length := by
    rw [hbase, halinE]; exact hcurge
  have hallt : alignedAssetDataBaseOffset b.assets.length < 2 ^ 64 :=
    alignUp_lt_two_pow _ _
  have hpad : u64mod (2 ^ 64 + alignedAssetDataBaseOffset b.assets.length
      - assetDataBaseOffset b.assets.length)
      = alignedAssetDataBaseOffset b.assets.length
        - assetDataBaseOffset b.assets.length := by
    have h1 : 2 ^ 64 + alignedAssetDataBaseOffset b.assets.length
        - assetDataBaseOffset b.assets.length
        = 2 ^ 64 + (alignedAssetDataBaseOffset b.assets.length
          - assetDataBaseOffset b.assets.length) := by omega
    rw [h1]
    unfold u64mod
    rw [Nat.add_mod_left]
    exact Nat.mod_eq_of_lt (by omega)
  have hn2 : es.length < 2 ^ 64 := by omega
  have hbytes : Builder.build h fs b
      = .ok (u64le 0xdeadbeef ++ u64le es.length
        ++ (es.map AssetTableEntry.toStream).flatten
        ++ List.replicate (u64mod (2 ^ 64 + alignedAssetDataBaseOffset b.assets.length
            - assetDataBaseOffset b.assets.length)) 0
        ++ ab) := by
    unfold Builder.build
    simp only [hbe, hab]
  have hmagic : u64mod 0xdeadbeef = 0xdeadbeef := by
    unfold u64mod; norm_num
  have hnew : Library.new (u64le 0xdeadbeef ++ u64le es.length
      ++ (es.map AssetTableEntry.toStream).flatten
      ++ List.replicate (u64mod (2 ^ 64 + alignedAssetDataBaseOffset b.assets.length
          - assetDataBaseOffset b.assets.length)) 0
      ++ ab)
      = .ok ⟨es, u64le 0xdeadbeef ++ u64le es.length
        ++ (es.map AssetTableEntry.toStream).flatten
        ++ List.replicate (u64mod (2 ^ 64 + alignedAssetDataBaseOffset b.assets.length
            - assetDataBaseOffset b.assets.length)) 0
        ++ ab⟩ := by
    unfold Library.new
    simp only [List.append_assoc]
    rw [show u64le 0xdeadbeef ++ (u64le es.length
        ++ ((es.map AssetTableEntry.toStream).flatten
          ++ (List.replicate (u64mod (2 ^ 64
              + alignedAssetDataBaseOffset b.assets.length
              - assetDataBaseOffset b.assets.length)) 0 ++ ab)))
        = u64le 0xdeadbeef ++ (u64le es.length
          ++ ((es.map AssetTableEntry.toStream).flatten
            ++ (List.replicate (u64mod (2 ^ 64
                + alignedAssetDataBaseOffset b.assets.length
                - assetDataBaseOffset b.assets.length)) 0 ++ ab)))
      from rfl]
    simp only [readU64le_u64le, hmagic]
    rw [if_neg (by simp)]
    rw [tableFromStream_roundtrip es
      (List.replicate (u64mod (2 ^ 64 + alignedAssetDataBaseOffset b.assets.length
        - assetDataBaseOffset b.assets.length)) 0 ++ ab) hflds hn2]
  refine ⟨_, _, hbytes, hnew, ?_⟩
  intro p hpmem
  obtain ⟨e, hees, heid, hesz, hecur, hebd, heslice⟩ := hper p hpmem
  have hndes : (es.map (fun e => e.id)).Nodup := by rw [hmap]; exact hnd
  have hfind : findEntry es (assetIdOf h p) = some e := by
    rw [← heid]; exact findEntry_of_nodup es hndes e hees
  refine ⟨fsContent fs p,
    ⟨p, e.offset, e.size, u64le 0xdeadbeef ++ u64le es.length
      ++ (es.map AssetTableEntry.toStream).flatten
      ++ List.replicate (u64mod (2 ^ 64 + alignedAssetDataBaseOffset b.assets.length
          - assetDataBaseOffset b.assets.length)) 0
      ++ ab⟩,
    fsContent_eq fs p (hfs p hpmem), ?_, ?_⟩
  · unfold Library.load
    simp only [hfind]
  · have hival : u64mod (e.offset + e.size) = e.offset + e.size :=
      u64mod_eq_of_lt _ (by omega)
    have hpreflen : (u64le 0xdeadbeef ++ u64le es.length
        ++ (es.map AssetTableEntry.toStream).flatten
        ++ List.replicate (u64mod (2 ^ 64 + alignedAssetDataBaseOffset b.assets.length
            - assetDataBaseOffset b.assets.length)) 0).length
        = alignedAssetDataBaseOffset b.assets.length := by
      simp only [List.length_append, List.length_replicate, entries_flatten_length,
        hneslen, hpad, u64le, List.length_cons, List.length_nil]
      omega
    unfold Asset.data
    simp only [hival]
    rw [if_pos]
    · have htake : e.offset + e.size - e.offset = e.size := by omega
      rw [htake]
      have hoffsplit : e.offset = (u64le 0xdeadbeef ++ u64le es.length
          ++ (es.map AssetTableEntry.toStream).flatten
          ++ List.replicate (u64mod (2 ^ 64 + alignedAssetDataBaseOffset b.assets.length
              - assetDataBaseOffset b.assets.length)) 0).length
          + (e.offset - alignedAssetDataBaseOffset b.assets.length) := by
        rw [hpreflen]; omega
      rw [hoffsplit, List.drop_append]
      rw [hpreflen] at hoffsplit
      exact congrArg some heslice
    · constructor
      · omega
      · simp only [List.length_append, List.length_replicate, entries_flatten_length,
          hneslen, hpad, u64le, List.length_cons, List.length_nil]
        omega

set_option maxRecDepth 4000 in
/-- Witness for C1 at two names with distinct ids under `h = length`. -/
theorem build_open_load_roundtrip_witness :
    (∀ p ∈ (Builder.mk ["a", "bb"]).assets,
        ((fun q => if q = "a" then some [7] else some [8, 9]) p |>.isSome) = true) ∧
      ((Builder.mk ["a", "bb"]).assets.map (assetIdOf String.length)).Nodup ∧
      8 + 8 + (Builder.mk ["a", "bb"]).assets.length * 24 + 63
          + pathsSpan (fun q => if q = "a" then some [7] else some [8, 9])
            (Builder.mk ["a", "bb"]).assets < 2 ^ 64 ∧
      ∃ bytes lib,
        Builder.build String.length (fun q => if q = "a" then some [7] else some [8, 9])
            (Builder.mk ["a", "bb"]) = .ok bytes ∧
        Library.new bytes = .ok lib ∧
        ∀ p ∈ (Builder.mk ["a", "bb"]).assets, ∃ content a,
          (fun q => if q = "a" then some [7] else some [8, 9]) p = some content ∧
          Library.load lib String.length p = some a ∧ Asset.data a = some content :=
  ⟨by decide, by decide, by decide,
    build_open_load_roundtrip String.length
      (fun q => if q = "a" then some [7] else some [8, 9])
      (Builder.mk ["a", "bb"]) (by decide) (by decide) (by decide)⟩

set_option maxRecDepth 8000 in
/-- C1 counterexample: the claim as stated fails when two distinct names
collide on their 64-bit AssetId. With a conforming (deterministic) hasher
that maps both "a" and "b" to id 0, building the two distinct assets and
loading "a" returns asset "b"'s bytes `[2]`, not "a"'s original content
`[1]`: the later entry shadows the earlier one in the id-keyed table. -/
theorem build_open_load_roundtrip_counterexample :
    ("a" : String) ≠ "b" ∧
      (fun q => if q = "a" then some [1] else some [2]) "a" = some [1] ∧
      (Builder.build (fun _ => 0) (fun q => if q = "a" then some [1] else some [2])
          (Builder.insert (Builder.insert Builder.new "a") "b")).map
        (fun bytes => (Library.new bytes).map
          (fun lib => (Library.load lib (fun _ => 0) "a").map Asset.data))
        = .ok (.ok (some (some [2]))) ∧
      ([2] : List Nat) ≠ [1] :=
  ⟨by decide, rfl, rfl, by decide⟩

-- ### C8: duplicate insert is last-wins

/-- C8: inserting two `AssetDescription`s under the same logical name
(each carries nothing but that name) silently collapses to a single
recorded asset — `insert` is total, no error — and building yields exactly
one table entry for that name, whose payload at its offset is the (second,
identical) description's data read from the name's source. -/
theorem duplicate_insert_last_wins (h : String → Nat) (fs : Fs) (name : String)
    (content : List Nat) (hc : fs name = some content) :
    Builder.insert (Builder.insert Builder.new name) name
        = Builder.insert Builder.new name ∧
      (Builder.insert (Builder.insert Builder.new name) name).assets = [name] ∧
      buildEntries h fs (Builder.insert (Builder.insert Builder.new name) name).assets
          (alignedAssetDataBaseOffset 1)
        = .ok [⟨assetIdOf h name, 64, content.length⟩] ∧
      ∃ bytes,
        Builder.build h fs (Builder.insert (Builder.insert Builder.new name) name)
            = .ok bytes ∧
          (bytes.drop 64).take content.length = content := by
  have hb1 : Builder.insert Builder.new name = Builder.mk [name] := by
    simp [Builder.insert, Builder.new]
  have hb2 : Builder.insert (Builder.insert Builder.new name) name
      = Builder.mk [name] := by
    rw [hb1]; simp [Builder.insert]
  have h641 : alignedAssetDataBaseOffset 1 = 64 := by decide
  have hbe : buildEntries h fs [name] (alignedAssetDataBaseOffset 1)
      = .ok [⟨assetIdOf h name, 64, content.length⟩] := by
    rw [h641]
    simp [buildEntries, hc]
  have hab : assetBytes fs [name]
      = .ok (content
        ++ List.replicate (alignUp content.length ASSET_ALIGN_SIZE - content.length) 0
        ++ []) := by
    simp only [assetBytes, hc]
  refine ⟨hb2.trans hb1.symm, by rw [hb2], by rw [hb2]; exact hbe, ?_⟩
  rw [hb2]
  unfold Builder.build
  simp only [List.length_singleton]
  simp only [hbe, hab]
  refine ⟨_, rfl, ?_⟩
  have hpadval : u64mod (2 ^ 64 + alignedAssetDataBaseOffset 1
      - assetDataBaseOffset 1) = 24 := by decide
  have hplen : (u64le 0xdeadbeef
      ++ u64le [(⟨assetIdOf h name, 64, content.length⟩ : AssetTableEntry)].length
      ++ ([(⟨assetIdOf h name, 64, content.length⟩ : AssetTableEntry)].map
          AssetTableEntry.toStream).flatten
      ++ List.replicate (u64mod (2 ^ 64 + alignedAssetDataBaseOffset 1
          - assetDataBaseOffset 1)) 0).length = 64 := by
    rw [hpadval]
    simp [u64le, toStream_length]
  rw [List.drop_left' hplen, List.append_nil]
  exact List.take_left _ _

/-- Witness for C8 at a three-byte asset. -/
theorem duplicate_insert_last_wins_witness :
    (fun _ : String => some [3, 4, 5]) "x" = some [3, 4, 5] ∧
      (Builder.insert (Builder.insert Builder.new "x") "x"
          = Builder.insert Builder.new "x" ∧
        (Builder.insert (Builder.insert Builder.new "x") "x").assets = ["x"] ∧
        buildEntries (fun _ => 9) (fun _ => some [3, 4, 5])
            (Builder.insert (Builder.insert Builder.new "x") "x").assets
            (alignedAssetDataBaseOffset 1)
          = .ok [⟨assetIdOf (fun _ => 9) "x", 64, List.length [3, 4, 5]⟩] ∧
        ∃ bytes,
          Builder.build (fun _ => 9) (fun _ => some [3, 4, 5])
              (Builder.insert (Builder.insert Builder.new "x") "x")
              = .ok bytes ∧
            (bytes.drop 64).take (List.length [3, 4, 5]) = [3, 4, 5]) :=
  ⟨rfl, duplicate_insert_last_wins (fun _ => 9) (fun _ => some [3, 4, 5]) "x"
    [3, 4, 5] rfl⟩

end AssetIO
